import Mathlib

/-!
Verification of the balanced recipe book program.

Shallow embedding of `src/balanced_recipe_book.py`.  Python floats are
modelled as rationals, Python sets as lists (used only through
membership), and Python strings as Lean strings, manipulated through
their underlying char lists.  The helpers `words`, `joinWords` and
`stripChars` embed `str.split()` (no separator), `" ".join(...)` and
`str.strip()` at the char-list level; character classes are the ASCII
fragment of the Python predicates.
-/

namespace RecipeBook

/-- CAL_FACTORS constant from the source, in dict insertion order. -/
def CAL_FACTORS : List (String × ℚ) := [("carbs", 4), ("protein", 4), ("fat", 9)]

/-- TARGET_RATIOS constant from the source. -/
def TARGET_RATIOS : List (String × ℚ) := [("carbs", 2/5), ("protein", 3/10), ("fat", 3/10)]

/-- RATIO_TOLERANCE constant from the source. -/
def RATIO_TOLERANCE : ℚ := 1/10

/-- Embedding of `d.get(k, 0.0)` on a string-keyed numeric Python dict,
the dict being modelled as an association list. -/
def dictGet (d : List (String × ℚ)) (k : String) : ℚ :=
  match d.lookup k with
  | some v => v
  | none => 0

/-- Embedding of `str.split()` with no separator argument: the maximal
runs of non-whitespace characters, in order. -/
def words : List Char → List (List Char)
  | [] => []
  | c :: cs =>
    if c.isWhitespace then
      words cs
    else
      match cs with
      | [] => [[c]]
      | d :: _ =>
        if d.isWhitespace then
          [c] :: words cs
        else
          match words cs with
          | [] => [[c]]
          | w :: ws => (c :: w) :: ws

/-- Embedding of `" ".join(...)` at the char-list level. -/
def joinWords : List (List Char) → List Char
  | [] => []
  | [w] => w
  | w :: ws => w ++ ' ' :: joinWords ws

/-- Embedding of `str.strip()` with no argument: drop whitespace from
both ends. -/
def stripChars (cs : List Char) : List Char :=
  ((cs.dropWhile Char.isWhitespace).reverse.dropWhile Char.isWhitespace).reverse

/-- Embedding of `normalize_token`: lowercase, keep alphanumeric and
whitespace characters, then re-join the whitespace-split chunks with
single spaces and strip. -/
def normalize_token (value : String) : String :=
  let cleaned := (value.data.map Char.toLower).filter fun ch => ch.isAlphanum || ch.isWhitespace
  String.mk (stripChars (joinWords (words cleaned)))

/-- Embedding of `tokenize`: `set(phrase.split())`. -/
def tokenize (phrase : String) : Finset String :=
  ((words phrase.data).map String.mk).toFinset

/-- Embedding of `ingredient_matches`.  The pantry set is modelled as a
list iterated like the Python for loop; 0.6 is the rational 6/10. -/
def ingredient_matches (ingredient : String) (pantry : List String) : Bool :=
  let ingredient_tokens := tokenize ingredient
  if ingredient_tokens.card = 0 then
    false
  else
    pantry.any fun item =>
      let item_tokens := tokenize item
      if item_tokens.card = 0 then
        false
      else
        let overlap := (ingredient_tokens ∩ item_tokens).card
        if overlap = 0 then
          false
        else
          let coverage : ℚ := (overlap : ℚ) / ((min ingredient_tokens.card item_tokens.card : ℕ) : ℚ)
          decide (coverage ≥ 6/10)

/-- Embedding of the frozen `Recipe` dataclass. -/
structure Recipe where
  name : String
  servings : Int
  core_ingredients : List String
  supporting_ingredients : List String
  instructions : List String
  macros : List (String × ℚ)
  tags : List String
  notes : String
deriving DecidableEq

/-- Raw data handed to `Recipe.from_dict`, with the defaults of the
Python `data.get` calls already applied to absent fields. -/
structure RecipeData where
  name : String
  servings : Int
  core_ingredients : List String
  supporting_ingredients : List String
  instructions : List String
  macros : List (String × ℚ)
  tags : List String
  notes : String

/-- Embedding of the `norm_list` helper nested in `Recipe.from_dict`:
normalize every item and keep the truthy (non-empty) results. -/
def norm_list (items : List String) : List String :=
  (items.map normalize_token).filter fun item => item ≠ ""

/-- Embedding of `Recipe.from_dict`. -/
def Recipe.from_dict (data : RecipeData) : Recipe :=
  { name := data.name
    servings := data.servings
    core_ingredients := norm_list data.core_ingredients
    supporting_ingredients := norm_list data.supporting_ingredients
    instructions := data.instructions
    macros := data.macros
    tags := data.tags
    notes := data.notes }

/-- Embedding of `Recipe.ingredient_score`. -/
def Recipe.ingredient_score (self : Recipe) (pantry : List String) : ℚ :=
  if self.core_ingredients = [] then
    0
  else
    let core_hits := self.core_ingredients.countP fun ingredient => ingredient_matches ingredient pantry
    let core_ratio : ℚ := (core_hits : ℚ) / (self.core_ingredients.length : ℚ)
    let supporting_ratio : ℚ :=
      if self.supporting_ingredients ≠ [] then
        let supporting_hits :=
          self.supporting_ingredients.countP fun ingredient => ingredient_matches ingredient pantry
        (supporting_hits : ℚ) / (self.supporting_ingredients.length : ℚ)
      else
        0
    core_ratio * (3/4) + supporting_ratio * (1/4)

/-- Embedding of `Recipe.macro_ratios`. -/
def Recipe.macro_ratios (self : Recipe) : List (String × ℚ) :=
  let calories := CAL_FACTORS.foldl (fun acc p => acc + dictGet self.macros p.1 * p.2) 0
  if calories ≤ 0 then
    TARGET_RATIOS.map fun p => (p.1, (0 : ℚ))
  else
    TARGET_RATIOS.map fun p => (p.1, dictGet self.macros p.1 * dictGet CAL_FACTORS p.1 / calories)

/-- Embedding of `Recipe.balance_score`. -/
def Recipe.balance_score (self : Recipe) : ℚ :=
  let ratios := self.macro_ratios
  let deltas := TARGET_RATIOS.map fun p => |dictGet ratios p.1 - p.2| / RATIO_TOLERANCE
  let score := 1 - deltas.sum / (TARGET_RATIOS.length : ℚ)
  max 0 (min 1 score)

/-- Embedding of `Recipe.is_balanced`. -/
def Recipe.is_balanced (self : Recipe) : Bool :=
  let ratios := self.macro_ratios
  TARGET_RATIOS.all fun p => decide (|dictGet ratios p.1 - p.2| ≤ RATIO_TOLERANCE)

/-- Stable insertion into a list kept in descending order of the first
component; ties place the inserted element after the existing ones it
ties with only when it compares strictly smaller, i.e. an element is put
before the first position whose key is not larger. -/
def insertDesc (a : ℚ × Recipe) : List (ℚ × Recipe) → List (ℚ × Recipe)
  | [] => [a]
  | b :: bs => if b.1 ≤ a.1 then a :: b :: bs else b :: insertDesc a bs

/-- Stable descending sort by the first component.  Python
`list.sort(key=..., reverse=True)` is a stable sort, and every stable
sort of the same total preorder is extensionally this function. -/
def sortDesc : List (ℚ × Recipe) → List (ℚ × Recipe)
  | [] => []
  | a :: rest => insertDesc a (sortDesc rest)

/-- Embedding of `score_recipes`: keep balanced recipes, pair each with
`coverage * 0.8 + balance * 0.2`, sort stably by descending score. -/
def score_recipes (recipes : List Recipe) (pantry : List String) : List (ℚ × Recipe) :=
  let scored := (recipes.filter fun recipe => recipe.is_balanced).map fun recipe =>
    (recipe.ingredient_score pantry * (8/10) + recipe.balance_score * (2/10), recipe)
  sortDesc scored

/-- Outcomes of `main`: `usageError` stands for `parser.error` (which
prints a usage message and exits), `emptyResult` for the diagnostic
printed on stderr when no recipe survives, `success` for the normal path
printing the listed suggestions. -/
inductive ExitOutcome where
  | usageError (message : String)
  | emptyResult
  | success (shown : List (ℚ × Recipe))
deriving DecidableEq

/-- Exit status of each outcome: argparse `parser.error` terminates the
process with status 2, the empty-result branch returns 1 and the success
branch returns 0. -/
def ExitOutcome.exitCode : ExitOutcome → Nat
  | .usageError _ => 2
  | .emptyResult => 1
  | .success _ => 0

/-- Embedding of `main`.  `pantry` is the pantry resolved from the
arguments and the optional interactive prompt, `fileExists` abstracts
the `recipe_path.exists()` test, `recipes` abstracts the parsed content
of the recipe file and `top` is the `--top` option. -/
def main (pantry : List String) (fileExists : Bool) (recipes : List Recipe) (top : Int) : ExitOutcome :=
  if pantry = [] then
    .usageError "No ingredients provided. Add them as arguments or via the prompt."
  else if fileExists = false then
    .usageError "Recipe file not found"
  else
    let found := score_recipes recipes pantry
    if found = [] then
      .emptyResult
    else
      .success (found.take (max 1 top).toNat)

/-! Character facts used by the normalizer proofs. -/

theorem charToNat_ofNat {n : Nat} (h : n < 55296) : (Char.ofNat n).toNat = n := by
  have hv : Nat.isValidChar n := Or.inl h
  simp only [Char.ofNat]
  rw [dif_pos hv]
  rfl

theorem toLower_eq_self {c : Char} (h : ¬(c.toNat ≥ 65 ∧ c.toNat ≤ 90)) : c.toLower = c := by
  simp only [Char.toLower]
  rw [if_neg h]

theorem toNat_toLower_not_upper (c : Char) :
    ¬(c.toLower.toNat ≥ 65 ∧ c.toLower.toNat ≤ 90) := by
  simp only [Char.toLower]
  by_cases h : c.toNat ≥ 65 ∧ c.toNat ≤ 90
  · rw [if_pos h, charToNat_ofNat (by omega)]
    omega
  · rw [if_neg h]
    exact h

theorem toLower_toLower (c : Char) : c.toLower.toLower = c.toLower :=
  toLower_eq_self (toNat_toLower_not_upper c)

/-! Unfolding equations for `words`. -/

theorem words_nil : words [] = [] := rfl

theorem words_cons_ws {c : Char} (h : c.isWhitespace = true) (cs : List Char) :
    words (c :: cs) = words cs := by
  simp [words, h]

theorem words_singleton {c : Char} (h : c.isWhitespace = false) : words [c] = [[c]] := by
  simp [words, h]

theorem words_cons_cons_ws {c d : Char} (hc : c.isWhitespace = false)
    (hd : d.isWhitespace = true) (cs : List Char) :
    words (c :: d :: cs) = [c] :: words (d :: cs) := by
  simp [words, hc, hd]

theorem words_cons_cons_not_ws {c d : Char} (hc : c.isWhitespace = false)
    (hd : d.isWhitespace = false) (cs : List Char) :
    words (c :: d :: cs) =
      match words (d :: cs) with
      | [] => [[c]]
      | w :: ws => (c :: w) :: ws := by
  simp [words, hc, hd]

/-- Chunks produced by `words` are non-empty, whitespace-free and drawn
from the input. -/
theorem words_sound (l : List Char) :
    ∀ w ∈ words l, w ≠ [] ∧ ∀ c ∈ w, c ∈ l ∧ c.isWhitespace = false := by
  induction l with
  | nil => simp [words_nil]
  | cons c cs ih =>
    by_cases hc : c.isWhitespace = true
    · rw [words_cons_ws hc]
      intro w hw
      obtain ⟨h1, h2⟩ := ih w hw
      exact ⟨h1, fun x hx => ⟨List.mem_cons_of_mem _ (h2 x hx).1, (h2 x hx).2⟩⟩
    · have hc' : c.isWhitespace = false := by simpa using hc
      cases cs with
      | nil =>
        rw [words_singleton hc']
        intro w hw
        simp only [List.mem_singleton] at hw
        subst hw
        refine ⟨by simp, ?_⟩
        intro x hx
        simp only [List.mem_singleton] at hx
        subst hx
        exact ⟨List.mem_singleton_self _, hc'⟩
      | cons d ds =>
        by_cases hd : d.isWhitespace = true
        · rw [words_cons_cons_ws hc' hd]
          intro w hw
          rcases List.mem_cons.mp hw with h | h
          · subst h
            refine ⟨by simp, ?_⟩
            intro x hx
            simp only [List.mem_singleton] at hx
            subst hx
            exact ⟨List.mem_cons_self _ _, hc'⟩
          · obtain ⟨h1, h2⟩ := ih w h
            exact ⟨h1, fun x hx => ⟨List.mem_cons_of_mem _ (h2 x hx).1, (h2 x hx).2⟩⟩
        · have hd' : d.isWhitespace = false := by simpa using hd
          rw [words_cons_cons_not_ws hc' hd']
          cases hW : words (d :: ds) with
          | nil =>
            intro w hw
            simp only [List.mem_singleton] at hw
            subst hw
            refine ⟨by simp, ?_⟩
            intro x hx
            simp only [List.mem_singleton] at hx
            subst hx
            exact ⟨List.mem_cons_self _ _, hc'⟩
          | cons w0 ws0 =>
            intro w hw
            simp only [List.mem_cons] at hw
            rcases hw with h | h
            · subst h
              have h0 := ih w0 (by rw [hW]; exact List.mem_cons_self _ _)
              refine ⟨by simp, ?_⟩
              intro x hx
              rcases List.mem_cons.mp hx with rfl | hx'
              · exact ⟨List.mem_cons_self _ _, hc'⟩
              · exact ⟨List.mem_cons_of_mem _ (h0.2 x hx').1, (h0.2 x hx').2⟩
            · have h0 := ih w (by rw [hW]; exact List.mem_cons_of_mem _ h)
              exact ⟨h0.1, fun x hx =>
                ⟨List.mem_cons_of_mem _ (h0.2 x hx).1, (h0.2 x hx).2⟩⟩

/-- Splitting a non-empty whitespace-free chunk followed by nothing or a
whitespace character returns the chunk followed by the split of the rest. -/
theorem words_chunk (w : List Char) :
    ∀ t : List Char, w ≠ [] → (∀ c ∈ w, c.isWhitespace = false) →
    (t = [] ∨ ∃ d t2, t = d :: t2 ∧ d.isWhitespace = true) →
    words (w ++ t) = w :: words t := by
  induction w with
  | nil => intro t h; exact absurd rfl h
  | cons c w' ih =>
    intro t _ hin ht
    have hc : c.isWhitespace = false := hin c (List.mem_cons_self _ _)
    cases w' with
    | nil =>
      rcases ht with rfl | ⟨d, t2, rfl, hd⟩
      · rw [List.append_nil, words_singleton hc, words_nil]
      · exact words_cons_cons_ws hc hd t2
    | cons c2 w2 =>
      have hc2 : c2.isWhitespace = false := hin c2 (List.mem_cons_of_mem _ (List.mem_cons_self _ _))
      have hIH : words ((c2 :: w2) ++ t) = (c2 :: w2) :: words t :=
        ih t (by simp) (fun x hx => hin x (List.mem_cons_of_mem _ hx)) ht
      show words (c :: ((c2 :: w2) ++ t)) = (c :: c2 :: w2) :: words t
      rw [List.cons_append, words_cons_cons_not_ws hc hc2, ← List.cons_append, hIH]

/-- Well-formed chunk lists: every chunk is non-empty and free of
whitespace, as `words` produces. -/
def goodWords (ws : List (List Char)) : Prop :=
  ∀ w ∈ ws, w ≠ [] ∧ ∀ c ∈ w, c.isWhitespace = false

theorem joinWords_singleton (w : List Char) : joinWords [w] = w := rfl

theorem joinWords_cons_cons (w v : List Char) (ws : List (List Char)) :
    joinWords (w :: v :: ws) = w ++ ' ' :: joinWords (v :: ws) := rfl

theorem joinWords_ne_nil {w : List Char} (hw : w ≠ []) (ws : List (List Char)) :
    joinWords (w :: ws) ≠ [] := by
  cases ws with
  | nil => exact hw
  | cons v rs =>
    rw [joinWords_cons_cons]
    cases w with
    | nil => exact absurd rfl hw
    | cons a as => simp

/-- Splitting the space-joined chunks recovers the chunks. -/
theorem words_joinWords : ∀ ws : List (List Char), goodWords ws → words (joinWords ws) = ws := by
  intro ws
  induction ws with
  | nil => intro _; rfl
  | cons w rest ih =>
    intro h
    have hw := h w (List.mem_cons_self _ _)
    cases rest with
    | nil =>
      rw [joinWords_singleton]
      have := words_chunk w [] hw.1 hw.2 (Or.inl rfl)
      rw [List.append_nil, words_nil] at this
      exact this
    | cons v rs =>
      rw [joinWords_cons_cons,
        words_chunk w (' ' :: joinWords (v :: rs)) hw.1 hw.2
          (Or.inr ⟨' ', joinWords (v :: rs), rfl, by decide⟩),
        words_cons_ws (by decide), ih (fun x hx => h x (List.mem_cons_of_mem _ hx))]

theorem joinWords_head_not_ws : ∀ ws : List (List Char), goodWords ws →
    ∀ c : Char, (joinWords ws).head? = some c → c.isWhitespace = false := by
  intro ws h c hc
  cases ws with
  | nil => exact absurd hc (by simp [joinWords])
  | cons w rest =>
    have hw := h w (List.mem_cons_self _ _)
    obtain ⟨a, as, rfl⟩ : ∃ a as, w = a :: as := by
      cases w with
      | nil => exact absurd rfl hw.1
      | cons a as => exact ⟨a, as, rfl⟩
    have ha : c = a := by
      cases rest with
      | nil => rw [joinWords_singleton] at hc; simpa using hc.symm
      | cons v rs =>
        rw [joinWords_cons_cons, List.cons_append] at hc
        simpa using hc.symm
    subst ha
    exact hw.2 c (List.mem_cons_self _ _)

theorem joinWords_last_not_ws : ∀ ws : List (List Char), goodWords ws →
    ∀ c : Char, (joinWords ws).getLast? = some c → c.isWhitespace = false := by
  intro ws
  induction ws with
  | nil => intro _ c hc; exact absurd hc (by simp [joinWords])
  | cons w rest ih =>
    intro h c hc
    have hw := h w (List.mem_cons_self _ _)
    cases rest with
    | nil =>
      rw [joinWords_singleton] at hc
      exact hw.2 c (List.mem_of_getLast?_eq_some hc)
    | cons v rs =>
      have hv := h v (List.mem_cons_of_mem _ (List.mem_cons_self _ _))
      have hne : joinWords (v :: rs) ≠ [] := joinWords_ne_nil hv.1 rs
      rw [joinWords_cons_cons, List.getLast?_append] at hc
      have hlast : (' ' :: joinWords (v :: rs)).getLast? = some c := by
        rcases Option.or_eq_some.mp hc with h1 | ⟨h1, _⟩
        · exact h1
        · exact absurd h1 (by simp [joinWords_ne_nil hw.1])
      have hc2 : (joinWords (v :: rs)).getLast? = some c := by
        have : (' ' :: joinWords (v :: rs)).getLast? = (joinWords (v :: rs)).getLast? := by
          show ([' '] ++ joinWords (v :: rs)).getLast? = _
          rw [List.getLast?_append]
          cases hj : (joinWords (v :: rs)).getLast? with
          | none => exact absurd (List.getLast?_eq_none_iff.mp hj) hne
          | some d => rfl
        rw [← this]
        exact hlast
      exact ih (fun x hx => h x (List.mem_cons_of_mem _ hx)) c hc2

/-- Stripping whitespace from the ends of space-joined chunks changes
nothing. -/
theorem stripChars_joinWords (ws : List (List Char)) (h : goodWords ws) :
    stripChars (joinWords ws) = joinWords ws := by
  unfold stripChars
  have h1 : (joinWords ws).dropWhile Char.isWhitespace = joinWords ws := by
    cases hj : joinWords ws with
    | nil => rfl
    | cons a l =>
      have ha : a.isWhitespace = false := joinWords_head_not_ws ws h a (by rw [hj]; rfl)
      rw [List.dropWhile_cons_of_neg (by simp [ha])]
  have h2 : (joinWords ws).reverse.dropWhile Char.isWhitespace = (joinWords ws).reverse := by
    cases hr : (joinWords ws).reverse with
    | nil => rfl
    | cons a l =>
      have ha : (joinWords ws).getLast? = some a := by
        rw [List.getLast?_eq_head?_reverse, hr]; rfl
      have ha' : a.isWhitespace = false := joinWords_last_not_ws ws h a ha
      rw [List.dropWhile_cons_of_neg (by simp [ha'])]
  rw [h1, h2, List.reverse_reverse]

theorem mem_joinWords : ∀ ws : List (List Char), ∀ c ∈ joinWords ws,
    c = ' ' ∨ ∃ w ∈ ws, c ∈ w := by
  intro ws
  induction ws with
  | nil => intro c hc; exact absurd hc (by simp [joinWords])
  | cons w rest ih =>
    intro c hc
    cases rest with
    | nil =>
      rw [joinWords_singleton] at hc
      exact Or.inr ⟨w, List.mem_cons_self _ _, hc⟩
    | cons v rs =>
      rw [joinWords_cons_cons] at hc
      rcases List.mem_append.mp hc with h1 | h1
      · exact Or.inr ⟨w, List.mem_cons_self _ _, h1⟩
      · rcases List.mem_cons.mp h1 with rfl | h2
        · exact Or.inl rfl
        · rcases ih c h2 with h3 | ⟨w2, hw2, hcw⟩
          · exact Or.inl h3
          · exact Or.inr ⟨w2, List.mem_cons_of_mem _ hw2, hcw⟩

/-- Core idempotence fact: normalizing an already normalized string
changes nothing. -/
theorem normalize_token_idem (s : String) :
    normalize_token (normalize_token s) = normalize_token s := by
  have hgood : goodWords (words ((s.data.map Char.toLower).filter
      fun ch => ch.isAlphanum || ch.isWhitespace)) := by
    intro w hw
    obtain ⟨h1, h2⟩ := words_sound _ w hw
    exact ⟨h1, fun c hc => (h2 c hc).2⟩
  have hmemClean : ∀ c ∈ joinWords (words ((s.data.map Char.toLower).filter
      fun ch => ch.isAlphanum || ch.isWhitespace)),
      c ∈ (s.data.map Char.toLower).filter (fun ch => ch.isAlphanum || ch.isWhitespace) ∨ c = ' ' := by
    intro c hc
    rcases mem_joinWords _ c hc with h | ⟨w, hw, hcw⟩
    · exact Or.inr h
    · exact Or.inl ((words_sound _ w hw).2 c hcw).1
  have h1 : normalize_token s = String.mk (joinWords (words ((s.data.map Char.toLower).filter
      fun ch => ch.isAlphanum || ch.isWhitespace))) := by
    show String.mk (stripChars (joinWords (words _))) = _
    rw [stripChars_joinWords _ hgood]
  rw [h1]
  set out := joinWords (words ((s.data.map Char.toLower).filter
      fun ch => ch.isAlphanum || ch.isWhitespace)) with hout
  have hlow : out.map Char.toLower = out := by
    have : ∀ c ∈ out, c.toLower = c := by
      intro c hc
      rcases hmemClean c hc with h | rfl
      · obtain ⟨hmem, _⟩ := List.mem_filter.mp h
        obtain ⟨c0, _, hc0⟩ := List.mem_map.mp hmem
        rw [← hc0]
        exact toLower_toLower c0
      · decide
    rw [List.map_congr_left this]
    simp
  have hfil : out.filter (fun ch => ch.isAlphanum || ch.isWhitespace) = out := by
    rw [List.filter_eq_self]
    intro c hc
    rcases hmemClean c hc with h | rfl
    · exact (List.mem_filter.mp h).2
    · decide
  show String.mk (stripChars (joinWords (words ((out.map Char.toLower).filter
      fun ch => ch.isAlphanum || ch.isWhitespace)))) = String.mk out
  rw [hlow, hfil, hout, words_joinWords _ hgood, stripChars_joinWords _ hgood]

/-! Properties of the stable descending sort. -/

theorem insertDesc_perm (a : ℚ × Recipe) (l : List (ℚ × Recipe)) :
    (insertDesc a l).Perm (a :: l) := by
  induction l with
  | nil => exact List.Perm.refl _
  | cons b bs ih =>
    by_cases h : b.1 ≤ a.1
    · simp only [insertDesc, if_pos h]
      exact List.Perm.refl _
    · simp only [insertDesc, if_neg h]
      exact (ih.cons b).trans (List.Perm.swap a b bs)

theorem insertDesc_pairwise {a : ℚ × Recipe} {l : List (ℚ × Recipe)}
    (h : l.Pairwise fun x y => y.1 ≤ x.1) :
    (insertDesc a l).Pairwise fun x y => y.1 ≤ x.1 := by
  induction l with
  | nil => simp [insertDesc]
  | cons b bs ih =>
    rcases List.pairwise_cons.mp h with ⟨hb, hbs⟩
    by_cases hba : b.1 ≤ a.1
    · simp only [insertDesc, if_pos hba]
      refine List.pairwise_cons.mpr ⟨?_, h⟩
      intro y hy
      rcases List.mem_cons.mp hy with rfl | hy'
      · exact hba
      · exact le_trans (hb y hy') hba
    · simp only [insertDesc, if_neg hba]
      refine List.pairwise_cons.mpr ⟨?_, ih hbs⟩
      intro y hy
      rcases List.mem_cons.mp ((insertDesc_perm a bs).mem_iff.mp hy) with rfl | hy'
      · exact le_of_lt (lt_of_not_le hba)
      · exact hb y hy'

theorem insertDesc_filter (a : ℚ × Recipe) (l : List (ℚ × Recipe)) (q : ℚ) :
    (insertDesc a l).filter (fun x => decide (x.1 = q)) =
      ((a :: l).filter fun x => decide (x.1 = q)) := by
  induction l with
  | nil => rfl
  | cons b bs ih =>
    by_cases hba : b.1 ≤ a.1
    · simp only [insertDesc, if_pos hba]
    · simp only [insertDesc, if_neg hba]
      by_cases haq : a.1 = q
      · have hbq : b.1 ≠ q := fun hb => hba (by rw [hb, haq])
        simp [List.filter_cons, haq, hbq, ih]
      · by_cases hbq : b.1 = q <;> simp [List.filter_cons, haq, hbq, ih]

theorem sortDesc_perm (l : List (ℚ × Recipe)) : (sortDesc l).Perm l := by
  induction l with
  | nil => exact List.Perm.refl _
  | cons a as ih => exact (insertDesc_perm a (sortDesc as)).trans (ih.cons a)

theorem sortDesc_pairwise (l : List (ℚ × Recipe)) :
    (sortDesc l).Pairwise fun x y => y.1 ≤ x.1 := by
  induction l with
  | nil => simp [sortDesc]
  | cons a as ih => exact insertDesc_pairwise ih

theorem sortDesc_filter (l : List (ℚ × Recipe)) (q : ℚ) :
    (sortDesc l).filter (fun x => decide (x.1 = q)) = l.filter fun x => decide (x.1 = q) := by
  induction l with
  | nil => rfl
  | cons a as ih =>
    rw [show sortDesc (a :: as) = insertDesc a (sortDesc as) from rfl, insertDesc_filter]
    simp only [List.filter_cons, ih]

/-- C1: ingredient_matches ingredient pantry is true iff some pantry
item has positive token-set overlap with the ingredient and coverage
overlap / min(|A|, |B|) at least 0.6, where A and B are the whitespace
token sets of the ingredient and the item; when A is empty the result is
false for every pantry. -/
theorem C1_ingredient_matches_spec (ingredient : String) (pantry : List String) :
    (ingredient_matches ingredient pantry = true ↔
      ∃ item ∈ pantry,
        0 < (tokenize ingredient ∩ tokenize item).card ∧
        (6 : ℚ)/10 ≤ ((tokenize ingredient ∩ tokenize item).card : ℚ) /
          ((min (tokenize ingredient).card (tokenize item).card : ℕ) : ℚ)) ∧
    (tokenize ingredient = ∅ → ingredient_matches ingredient pantry = false) := by
  have key : ∀ item : String,
      ((if (tokenize item).card = 0 then false
        else if (tokenize ingredient ∩ tokenize item).card = 0 then false
        else decide ((((tokenize ingredient ∩ tokenize item).card : ℚ) /
          ((min (tokenize ingredient).card (tokenize item).card : ℕ) : ℚ)) ≥ 6/10)) = true)
      ↔ (0 < (tokenize ingredient ∩ tokenize item).card ∧
          (6 : ℚ)/10 ≤ ((tokenize ingredient ∩ tokenize item).card : ℚ) /
            ((min (tokenize ingredient).card (tokenize item).card : ℕ) : ℚ)) := by
    intro item
    by_cases hB : (tokenize item).card = 0
    · rw [if_pos hB]
      have hBe : tokenize ingredient ∩ tokenize item = ∅ := by
        rw [Finset.card_eq_zero.mp hB, Finset.inter_empty]
      simp [hBe]
    · rw [if_neg hB]
      by_cases hov : (tokenize ingredient ∩ tokenize item).card = 0
      · rw [if_pos hov]
        simp [hov]
      · rw [if_neg hov]
        simp [Nat.pos_of_ne_zero hov, ge_iff_le]
  constructor
  · simp only [ingredient_matches]
    by_cases hA : (tokenize ingredient).card = 0
    · rw [if_pos hA]
      have hAe : tokenize ingredient = ∅ := Finset.card_eq_zero.mp hA
      refine iff_of_false (by simp) ?_
      rintro ⟨item, _, hover, _⟩
      rw [hAe, Finset.empty_inter] at hover
      simp at hover
    · rw [if_neg hA, List.any_eq_true]
      constructor
      · rintro ⟨item, hmem, hpred⟩
        exact ⟨item, hmem, (key item).mp hpred⟩
      · rintro ⟨item, hmem, hc⟩
        exact ⟨item, hmem, (key item).mpr hc⟩
  · intro hAe
    simp only [ingredient_matches]
    rw [if_pos (by rw [hAe]; exact Finset.card_empty)]

/-- C1 witness: the spec example, the ingredient red bell pepper matched
against a pantry holding bell pepper. -/
theorem C1_witness : ingredient_matches "red bell pepper" ["bell pepper"] = true :=
  (C1_ingredient_matches_spec "red bell pepper" ["bell pepper"]).1.mpr
    ⟨"bell pepper", by decide, by decide, by
      have h1 : (tokenize "red bell pepper" ∩ tokenize "bell pepper").card = 2 := by decide
      have h2 : min (tokenize "red bell pepper").card (tokenize "bell pepper").card = 2 := by
        decide
      rw [h1, h2]
      norm_num⟩

/-! Evaluation lemmas for the macro computations. -/

theorem dictGet_cons_carbs (x y z : ℚ) :
    dictGet [("carbs", x), ("protein", y), ("fat", z)] "carbs" = x := rfl

theorem dictGet_cons_protein (x y z : ℚ) :
    dictGet [("carbs", x), ("protein", y), ("fat", z)] "protein" = y := rfl

theorem dictGet_cons_fat (x y z : ℚ) :
    dictGet [("carbs", x), ("protein", y), ("fat", z)] "fat" = z := rfl

theorem calories_foldl (r : Recipe) :
    CAL_FACTORS.foldl (fun acc p => acc + dictGet r.macros p.1 * p.2) 0 =
      dictGet r.macros "carbs" * 4 + dictGet r.macros "protein" * 4 +
        dictGet r.macros "fat" * 9 := by
  simp [CAL_FACTORS]

theorem macro_ratios_nonpos {r : Recipe}
    (h : dictGet r.macros "carbs" * 4 + dictGet r.macros "protein" * 4 +
      dictGet r.macros "fat" * 9 ≤ 0) :
    r.macro_ratios = [("carbs", 0), ("protein", 0), ("fat", 0)] := by
  simp only [Recipe.macro_ratios, calories_foldl]
  rw [if_pos h]
  rfl

theorem macro_ratios_pos {r : Recipe}
    (h : 0 < dictGet r.macros "carbs" * 4 + dictGet r.macros "protein" * 4 +
      dictGet r.macros "fat" * 9) :
    r.macro_ratios =
      [("carbs", dictGet r.macros "carbs" * 4 /
          (dictGet r.macros "carbs" * 4 + dictGet r.macros "protein" * 4 +
            dictGet r.macros "fat" * 9)),
       ("protein", dictGet r.macros "protein" * 4 /
          (dictGet r.macros "carbs" * 4 + dictGet r.macros "protein" * 4 +
            dictGet r.macros "fat" * 9)),
       ("fat", dictGet r.macros "fat" * 9 /
          (dictGet r.macros "carbs" * 4 + dictGet r.macros "protein" * 4 +
            dictGet r.macros "fat" * 9))] := by
  simp only [Recipe.macro_ratios, calories_foldl]
  rw [if_neg (not_le.mpr h)]
  simp [TARGET_RATIOS, show dictGet CAL_FACTORS "carbs" = 4 from rfl,
    show dictGet CAL_FACTORS "protein" = 4 from rfl,
    show dictGet CAL_FACTORS "fat" = 9 from rfl]

theorem is_balanced_iff (r : Recipe) :
    r.is_balanced = true ↔
      (|dictGet r.macro_ratios "carbs" - 2/5| ≤ 1/10 ∧
       |dictGet r.macro_ratios "protein" - 3/10| ≤ 1/10 ∧
       |dictGet r.macro_ratios "fat" - 3/10| ≤ 1/10) := by
  simp [Recipe.is_balanced, TARGET_RATIOS, RATIO_TOLERANCE]

theorem balance_score_eq (r : Recipe) :
    r.balance_score = max 0 (min 1 (1 -
      (|dictGet r.macro_ratios "carbs" - 2/5| / (1/10) +
       |dictGet r.macro_ratios "protein" - 3/10| / (1/10) +
       |dictGet r.macro_ratios "fat" - 3/10| / (1/10)) / 3)) := by
  simp only [Recipe.balance_score, TARGET_RATIOS, RATIO_TOLERANCE, List.map_cons,
    List.map_nil, List.sum_cons, List.sum_nil, List.length_cons, List.length_nil]
  norm_num
  ring_nf

/-- Sample recipe whose only macro entry is 100 grams of carbs. -/
def carb100 : Recipe := ⟨"pure carbs", 1, [], [], [], [("carbs", 100)], [], ""⟩

/-- Sample recipe exactly on the target ratios: 40, 30 and 30 calories. -/
def onTarget : Recipe :=
  ⟨"on target", 1, [], [], [], [("carbs", 10), ("protein", 15/2), ("fat", 10/3)], [], ""⟩

/-- Sample recipe from the end-to-end example of the spec. -/
def omelette : Recipe :=
  ⟨"omelette", 2, ["egg", "tomato"], ["cheese", "onion"], [],
    [("carbs", 50), ("protein", 75/2), ("fat", 333/10)], [], ""⟩

/-- C3: macro_ratios computes total calories as carbs*4 + protein*4 +
fat*9 grams (missing macros count 0); nonpositive calories give all-zero
ratios, positive calories give macro_grams*factor/calories per macro and
the three ratios sum to exactly 1. -/
theorem C3_macro_ratios_spec (r : Recipe) :
    (dictGet r.macros "carbs" * 4 + dictGet r.macros "protein" * 4 +
        dictGet r.macros "fat" * 9 ≤ 0 →
      r.macro_ratios = [("carbs", 0), ("protein", 0), ("fat", 0)]) ∧
    (0 < dictGet r.macros "carbs" * 4 + dictGet r.macros "protein" * 4 +
        dictGet r.macros "fat" * 9 →
      r.macro_ratios =
        [("carbs", dictGet r.macros "carbs" * 4 /
            (dictGet r.macros "carbs" * 4 + dictGet r.macros "protein" * 4 +
              dictGet r.macros "fat" * 9)),
         ("protein", dictGet r.macros "protein" * 4 /
            (dictGet r.macros "carbs" * 4 + dictGet r.macros "protein" * 4 +
              dictGet r.macros "fat" * 9)),
         ("fat", dictGet r.macros "fat" * 9 /
            (dictGet r.macros "carbs" * 4 + dictGet r.macros "protein" * 4 +
              dictGet r.macros "fat" * 9))] ∧
      (r.macro_ratios.map fun p => p.2).sum = 1) := by
  refine ⟨macro_ratios_nonpos, fun h => ⟨macro_ratios_pos h, ?_⟩⟩
  rw [macro_ratios_pos h]
  have hne : dictGet r.macros "carbs" * 4 + dictGet r.macros "protein" * 4 +
      dictGet r.macros "fat" * 9 ≠ 0 := ne_of_gt h
  simp only [List.map_cons, List.map_nil, List.sum_cons, List.sum_nil]
  field_simp
  ring

/-- C3 witness: the ratios of the omelette sample sum to exactly 1. -/
theorem C3_witness : (omelette.macro_ratios.map fun p => p.2).sum = 1 :=
  ((C3_macro_ratios_spec omelette).2 (by
    rw [show dictGet omelette.macros "carbs" = 50 from rfl,
      show dictGet omelette.macros "protein" = 75/2 from rfl,
      show dictGet omelette.macros "fat" = 333/10 from rfl]
    norm_num)).2

/-- C4: is_balanced is true iff each of the three macro ratios is within
0.10 of its target (0.40, 0.30, 0.30); the all-carbs recipe is not
balanced. -/
theorem C4_is_balanced_spec :
    (∀ r : Recipe, r.is_balanced = true ↔
      (|dictGet r.macro_ratios "carbs" - 2/5| ≤ 1/10 ∧
       |dictGet r.macro_ratios "protein" - 3/10| ≤ 1/10 ∧
       |dictGet r.macro_ratios "fat" - 3/10| ≤ 1/10)) ∧
    carb100.is_balanced = false := by
  refine ⟨is_balanced_iff, ?_⟩
  have h : 0 < dictGet carb100.macros "carbs" * 4 + dictGet carb100.macros "protein" * 4 +
      dictGet carb100.macros "fat" * 9 := by
    rw [show dictGet carb100.macros "carbs" = 100 from rfl,
      show dictGet carb100.macros "protein" = 0 from rfl,
      show dictGet carb100.macros "fat" = 0 from rfl]
    norm_num
  have hr := macro_ratios_pos h
  rw [show dictGet carb100.macros "carbs" = 100 from rfl,
    show dictGet carb100.macros "protein" = 0 from rfl,
    show dictGet carb100.macros "fat" = 0 from rfl] at hr
  rw [Bool.eq_false_iff, Ne, is_balanced_iff, hr, dictGet_cons_carbs]
  rintro ⟨h1, -, -⟩
  rw [abs_le] at h1
  have := h1.2
  norm_num at this

/-- C4 witness: the all-carbs recipe evaluated through the theorem. -/
theorem C4_witness : carb100.is_balanced = false :=
  C4_is_balanced_spec.2

/-- C5: balance_score equals the clamp to the unit interval of 1 minus
the average of the three tolerance-normalized deviations; it always lies
in the unit interval, an exactly-on-target recipe scores 1 and a recipe
whose three deviations all equal the tolerance scores 0. -/
theorem C5_balance_score_spec (r : Recipe) :
    r.balance_score = max 0 (min 1 (1 -
      (|dictGet r.macro_ratios "carbs" - 2/5| / (1/10) +
       |dictGet r.macro_ratios "protein" - 3/10| / (1/10) +
       |dictGet r.macro_ratios "fat" - 3/10| / (1/10)) / 3)) ∧
    0 ≤ r.balance_score ∧ r.balance_score ≤ 1 ∧
    ((dictGet r.macro_ratios "carbs" = 2/5 ∧ dictGet r.macro_ratios "protein" = 3/10 ∧
        dictGet r.macro_ratios "fat" = 3/10) → r.balance_score = 1) ∧
    ((|dictGet r.macro_ratios "carbs" - 2/5| = 1/10 ∧
        |dictGet r.macro_ratios "protein" - 3/10| = 1/10 ∧
        |dictGet r.macro_ratios "fat" - 3/10| = 1/10) → r.balance_score = 0) := by
  refine ⟨balance_score_eq r, ?_, ?_, ?_, ?_⟩
  · rw [balance_score_eq]
    exact le_max_left _ _
  · rw [balance_score_eq]
    exact max_le (by norm_num) (min_le_left _ _)
  · rintro ⟨h1, h2, h3⟩
    rw [balance_score_eq, h1, h2, h3]
    norm_num
  · rintro ⟨h1, h2, h3⟩
    rw [balance_score_eq, h1, h2, h3]
    norm_num

/-- C5 witness: the exactly-on-target sample recipe scores 1. -/
theorem C5_witness : onTarget.balance_score = 1 := by
  have h : 0 < dictGet onTarget.macros "carbs" * 4 + dictGet onTarget.macros "protein" * 4 +
      dictGet onTarget.macros "fat" * 9 := by
    rw [show dictGet onTarget.macros "carbs" = 10 from rfl,
      show dictGet onTarget.macros "protein" = 15/2 from rfl,
      show dictGet onTarget.macros "fat" = 10/3 from rfl]
    norm_num
  have hr := macro_ratios_pos h
  rw [show dictGet onTarget.macros "carbs" = 10 from rfl,
    show dictGet onTarget.macros "protein" = 15/2 from rfl,
    show dictGet onTarget.macros "fat" = 10/3 from rfl] at hr
  exact (C5_balance_score_spec onTarget).2.2.2.1
    ⟨by rw [hr, dictGet_cons_carbs]; norm_num,
     by rw [hr, dictGet_cons_protein]; norm_num,
     by rw [hr, dictGet_cons_fat]; norm_num⟩

/-- C6: ingredient_score is 0 on an empty core list, otherwise the
core match fraction weighted 0.75 plus the supporting match fraction
(0 on an empty supporting list) weighted 0.25; it always lies in the
unit interval. -/
theorem C6_ingredient_score_spec (r : Recipe) (pantry : List String) :
    (r.core_ingredients = [] → r.ingredient_score pantry = 0) ∧
    (r.core_ingredients ≠ [] →
      r.ingredient_score pantry =
        ((r.core_ingredients.countP fun i => ingredient_matches i pantry : ℕ) : ℚ) /
            (r.core_ingredients.length : ℚ) * (3/4) +
          (if r.supporting_ingredients = [] then 0
           else ((r.supporting_ingredients.countP fun i => ingredient_matches i pantry : ℕ) : ℚ) /
             (r.supporting_ingredients.length : ℚ)) * (1/4)) ∧
    0 ≤ r.ingredient_score pantry ∧ r.ingredient_score pantry ≤ 1 := by
  have hb : 0 ≤ r.ingredient_score pantry ∧ r.ingredient_score pantry ≤ 1 := by
    by_cases hcore : r.core_ingredients = []
    · simp [Recipe.ingredient_score, hcore]
    · simp only [Recipe.ingredient_score, if_neg hcore]
      have hclen : (0:ℚ) < (r.core_ingredients.length : ℚ) := by
        exact_mod_cast List.length_pos.mpr hcore
      have hc0 : (0:ℚ) ≤ ((r.core_ingredients.countP fun i => ingredient_matches i pantry : ℕ) : ℚ) /
          (r.core_ingredients.length : ℚ) :=
        div_nonneg (Nat.cast_nonneg _) hclen.le
      have hc1 : ((r.core_ingredients.countP fun i => ingredient_matches i pantry : ℕ) : ℚ) /
          (r.core_ingredients.length : ℚ) ≤ 1 := by
        rw [div_le_one hclen]
        exact_mod_cast List.countP_le_length _
      by_cases hs : r.supporting_ingredients ≠ []
      · simp only [if_pos hs]
        have hslen : (0:ℚ) < (r.supporting_ingredients.length : ℚ) := by
          exact_mod_cast List.length_pos.mpr (by simpa using hs)
        have hs0 : (0:ℚ) ≤
            ((r.supporting_ingredients.countP fun i => ingredient_matches i pantry : ℕ) : ℚ) /
              (r.supporting_ingredients.length : ℚ) :=
          div_nonneg (Nat.cast_nonneg _) hslen.le
        have hs1 : ((r.supporting_ingredients.countP fun i => ingredient_matches i pantry : ℕ) : ℚ) /
            (r.supporting_ingredients.length : ℚ) ≤ 1 := by
          rw [div_le_one hslen]
          exact_mod_cast List.countP_le_length _
        constructor <;> nlinarith
      · simp only [if_neg hs]
        constructor <;> nlinarith
  refine ⟨fun h => by simp [Recipe.ingredient_score, h], fun h => ?_, hb.1, hb.2⟩
  simp only [Recipe.ingredient_score, if_neg h]
  by_cases hs : r.supporting_ingredients = []
  · simp [hs]
  · simp [hs]

/-- C6 witness: the empty-core sample recipe scores 0 on any pantry. -/
theorem C6_witness : carb100.ingredient_score ["egg"] = 0 :=
  (C6_ingredient_score_spec carb100 ["egg"]).1 rfl

/-- Matching is monotone in the pantry. -/
theorem ingredient_matches_mono {i : String} {P Q : List String}
    (h : ∀ x ∈ P, x ∈ Q) (hm : ingredient_matches i P = true) :
    ingredient_matches i Q = true := by
  simp only [ingredient_matches] at hm ⊢
  by_cases hA : (tokenize i).card = 0
  · rw [if_pos hA] at hm
    exact absurd hm (by simp)
  · rw [if_neg hA] at hm ⊢
    rw [List.any_eq_true] at hm ⊢
    obtain ⟨item, hmem, hpred⟩ := hm
    exact ⟨item, h item hmem, hpred⟩

/-- Coverage scoring is monotone in the pantry. -/
theorem ingredient_score_mono (r : Recipe) {P Q : List String}
    (h : ∀ x ∈ P, x ∈ Q) : r.ingredient_score P ≤ r.ingredient_score Q := by
  by_cases hcore : r.core_ingredients = []
  · simp [Recipe.ingredient_score, hcore]
  · simp only [Recipe.ingredient_score, if_neg hcore]
    have hcnt : ∀ l : List String,
        (l.countP fun i => ingredient_matches i P) ≤ l.countP fun i => ingredient_matches i Q := by
      intro l
      apply List.countP_mono_left
      intro x _ hx
      exact ingredient_matches_mono h hx
    have hclen : (0:ℚ) < (r.core_ingredients.length : ℚ) := by
      exact_mod_cast List.length_pos.mpr hcore
    have hcdiv : ((r.core_ingredients.countP fun i => ingredient_matches i P : ℕ) : ℚ) /
        (r.core_ingredients.length : ℚ) ≤
        ((r.core_ingredients.countP fun i => ingredient_matches i Q : ℕ) : ℚ) /
          (r.core_ingredients.length : ℚ) := by
      gcongr
      exact_mod_cast hcnt _
    by_cases hs : r.supporting_ingredients ≠ []
    · simp only [if_pos hs]
      have hslen : (0:ℚ) < (r.supporting_ingredients.length : ℚ) := by
        exact_mod_cast List.length_pos.mpr (by simpa using hs)
      have hsdiv : ((r.supporting_ingredients.countP fun i => ingredient_matches i P : ℕ) : ℚ) /
          (r.supporting_ingredients.length : ℚ) ≤
          ((r.supporting_ingredients.countP fun i => ingredient_matches i Q : ℕ) : ℚ) /
            (r.supporting_ingredients.length : ℚ) := by
        gcongr
        exact_mod_cast hcnt _
      linarith
    · simp only [if_neg hs]
      linarith

/-- C10: for pantries P ⊆ Q, a match against P implies a match against
Q, and every recipe scores at most as much coverage on P as on Q. -/
theorem C10_pantry_monotone (ingredient : String) (P Q : List String)
    (hPQ : ∀ x ∈ P, x ∈ Q) :
    (ingredient_matches ingredient P = true → ingredient_matches ingredient Q = true) ∧
    ∀ r : Recipe, r.ingredient_score P ≤ r.ingredient_score Q :=
  ⟨fun hm => ingredient_matches_mono hPQ hm, fun r => ingredient_score_mono r hPQ⟩

/-- C10 witness: monotonicity applied to two concrete pantries. -/
theorem C10_witness : carb100.ingredient_score ["egg"] ≤
    carb100.ingredient_score ["egg", "tomato"] :=
  (C10_pantry_monotone "egg" ["egg"] ["egg", "tomato"] (by decide)).2 carb100

/-- C2: score_recipes returns exactly the balanced recipes, each paired
with coverage*0.8 + balance*0.2, in descending score order, and the sort
is stable: within each score the output order is the input order; no
unbalanced recipe appears. -/
theorem C2_score_recipes_spec (recipes : List Recipe) (pantry : List String) :
    (score_recipes recipes pantry).Perm
        ((recipes.filter fun r => r.is_balanced).map fun r =>
          (r.ingredient_score pantry * (8/10) + r.balance_score * (2/10), r)) ∧
    (score_recipes recipes pantry).Pairwise (fun a b => b.1 ≤ a.1) ∧
    (∀ q : ℚ, (score_recipes recipes pantry).filter (fun a => decide (a.1 = q)) =
      ((recipes.filter fun r => r.is_balanced).map fun r =>
        (r.ingredient_score pantry * (8/10) + r.balance_score * (2/10), r)).filter
        fun a => decide (a.1 = q)) ∧
    ∀ a ∈ score_recipes recipes pantry, a.2.is_balanced = true := by
  refine ⟨sortDesc_perm _, sortDesc_pairwise _, fun q => sortDesc_filter _ q, ?_⟩
  intro a ha
  have hmem : a ∈ (recipes.filter fun r => r.is_balanced).map fun r =>
      (r.ingredient_score pantry * (8/10) + r.balance_score * (2/10), r) :=
    (sortDesc_perm _).subset ha
  obtain ⟨r, hr, hra⟩ := List.mem_map.mp hmem
  rw [← hra]
  exact (List.mem_filter.mp hr).2

/-- C2 witness: the sortedness clause at a concrete input. -/
theorem C2_witness : (score_recipes [carb100, onTarget] ["egg"]).Pairwise
    (fun a b => b.1 ≤ a.1) :=
  (C2_score_recipes_spec [carb100, onTarget] ["egg"]).2.1

/-- C7: the normalizer is idempotent, total and maps the empty string to
the empty string. -/
theorem C7_normalize_idempotent :
    (∀ s : String, normalize_token (normalize_token s) = normalize_token s) ∧
    normalize_token "" = "" :=
  ⟨normalize_token_idem, rfl⟩

/-- C8: an empty resolved pantry or a missing recipe file yields a usage
error with exit status 2; a run with no balanced recipe yields the
distinct empty-result exit status 1 with its stderr diagnostic; a run
with at least one suggestion returns 0 and shows at least one entry. -/
theorem C8_exit_spec (pantry : List String) (fileExists : Bool) (recipes : List Recipe)
    (top : Int) :
    ((pantry = [] ∨ fileExists = false) →
      ∃ msg, main pantry fileExists recipes top = .usageError msg ∧
        (main pantry fileExists recipes top).exitCode = 2) ∧
    (pantry ≠ [] → fileExists = true → score_recipes recipes pantry = [] →
      main pantry fileExists recipes top = .emptyResult ∧
      (main pantry fileExists recipes top).exitCode = 1 ∧
      (main pantry fileExists recipes top).exitCode ≠ 0 ∧
      ∀ msg, (main pantry fileExists recipes top).exitCode ≠
        (ExitOutcome.usageError msg).exitCode) ∧
    (pantry ≠ [] → fileExists = true → score_recipes recipes pantry ≠ [] →
      ∃ shown, main pantry fileExists recipes top = .success shown ∧ shown ≠ [] ∧
        (main pantry fileExists recipes top).exitCode = 0) := by
  refine ⟨?_, ?_, ?_⟩
  · intro h
    rcases h with h | h
    · exact ⟨"No ingredients provided. Add them as arguments or via the prompt.",
        by simp [main, h], by simp [main, h, ExitOutcome.exitCode]⟩
    · by_cases hp : pantry = []
      · exact ⟨"No ingredients provided. Add them as arguments or via the prompt.",
          by simp [main, hp], by simp [main, hp, ExitOutcome.exitCode]⟩
      · exact ⟨"Recipe file not found",
          by simp [main, hp, h], by simp [main, hp, h, ExitOutcome.exitCode]⟩
  · intro hp hf hs
    refine ⟨by simp [main, hp, hf, hs], by simp [main, hp, hf, hs, ExitOutcome.exitCode],
      by simp [main, hp, hf, hs, ExitOutcome.exitCode], ?_⟩
    intro msg
    simp [main, hp, hf, hs, ExitOutcome.exitCode]
  · intro hp hf hs
    refine ⟨(score_recipes recipes pantry).take (max 1 top).toNat,
      by simp [main, hp, hf, hs], ?_, by simp [main, hp, hf, hs, ExitOutcome.exitCode]⟩
    have h1 : 1 ≤ (max 1 top).toNat := by
      have h2 : (1 : Int) ≤ max 1 top := le_max_left _ _
      omega
    cases hsc : score_recipes recipes pantry with
    | nil => exact absurd hsc hs
    | cons x xs =>
      cases hn : (max 1 top).toNat with
      | zero => omega
      | succ n => simp [List.take]

/-- C8 witness: a syntactically valid run over an empty collection takes
the empty-result exit with status 1. -/
theorem C8_witness : main ["egg"] true [] 1 = .emptyResult ∧
    (main ["egg"] true [] 1).exitCode = 1 := by
  have h := (C8_exit_spec ["egg"] true [] 1).2.1 (by simp) rfl rfl
  exact ⟨h.1, h.2.1⟩

/-- Sample raw recipe data with unnormalized and junk ingredient names. -/
def rawData : RecipeData :=
  ⟨"raw", 1, ["  Egg!  ", "??"], ["Tomato  Sauce"], [], [], [], ""⟩

/-- C9: from_dict normalizes both ingredient lists, dropping entries
that normalize to the empty string, so every stored core or supporting
ingredient is a non-empty fixed point of the normalizer. -/
theorem C9_from_dict_normalizes (data : RecipeData) :
    (Recipe.from_dict data).core_ingredients =
        ((data.core_ingredients.map normalize_token).filter fun item => item ≠ "") ∧
    (Recipe.from_dict data).supporting_ingredients =
        ((data.supporting_ingredients.map normalize_token).filter fun item => item ≠ "") ∧
    ∀ x, (x ∈ (Recipe.from_dict data).core_ingredients ∨
          x ∈ (Recipe.from_dict data).supporting_ingredients) →
      x ≠ "" ∧ normalize_token x = x := by
  refine ⟨rfl, rfl, ?_⟩
  have key : ∀ l x, x ∈ norm_list l → x ≠ "" ∧ normalize_token x = x := by
    intro l x hl
    obtain ⟨hmem, hne⟩ := List.mem_filter.mp hl
    obtain ⟨y, _, hy⟩ := List.mem_map.mp hmem
    refine ⟨by simpa using hne, ?_⟩
    rw [← hy]
    exact normalize_token_idem y
  intro x hx
  rcases hx with h | h
  · exact key _ x h
  · exact key _ x h

/-- C9 witness: the normalized entry surviving from the raw sample data
is non-empty and normalization-invariant. -/
theorem C9_witness : ("egg" : String) ≠ "" ∧ normalize_token "egg" = "egg" :=
  (C9_from_dict_normalizes rawData).2.2 "egg" (Or.inl (by decide))

end RecipeBook
